import Mathlib

/-!
Shallow embedding of the foreign-field / range-check / bit-slicing gadget core of
this repository (the `GadgetsBn254` subsystem), together with proofs settling the
frozen claims about it.

Field elements of the native field (`FieldBn254`) are embedded as natural numbers,
always taken to be the canonical nonnegative representative `< p`, where `p` is the
order of the native field; field operations are arithmetic on `ℕ` reduced `% p`.
Gadgets that emit assertions are embedded as functions returning `Option`
(`none` = the gadget cannot produce a valid proof / aborts) or carrying an
explicit `ok : Bool` for the outcome of their equality assertions. Witness blocks
(deferred computations that read concrete values) are embedded by computing the
witnessed value directly from the canonical representative, exactly as the source
computes it in concrete/proving mode.
-/

set_option maxRecDepth 4000

namespace GadgetsBn254

/-- The order of the native field of the proof system (`FieldBn254`, the scalar
field of the BN254 / alt_bn128 curve). Modelled from the spec: the spec treats the
native-field element type as an external collaborator; only its prime order enters
the numeric arguments. -/
def p : ℕ := 21888242871839275222246405745257275088548364400416034343698204186575808495617

/-- The limb size in bits: foreign field elements are 3 limbs of 88 bits
(`l = 88n` in `range-check-bn254.ts`). -/
def l : ℕ := 88

/-- A 3-tuple of native field values, representing a 3-limb bigint in
little-endian limb order (`type Field3 = [FieldBn254, FieldBn254, FieldBn254]`). -/
abbrev Field3 : Type := ℕ × ℕ × ℕ

/-- The bigint value of a `Field3`: `x0 + 2^88*x1 + 2^176*x2` (`Field3.toBigint`). -/
def Field3.toBigInt (x : Field3) : ℕ := x.1 + 2 ^ 88 * x.2.1 + 2 ^ 176 * x.2.2

/-- Split a bigint into a `Field3` of three 88-bit limbs (`Field3.split`). -/
def Field3.split (v : ℕ) : Field3 := (v % 2 ^ 88, v / 2 ^ 88 % 2 ^ 88, v / 2 ^ 176 % 2 ^ 88)

/-! ## The almost-reduced bound check (claim C1)

The implementation file `foreign-field-bn254.ts` is not among the sources; the
definitions below are modelled from the spec and from the `GadgetsBn254` wrapper
documentation. -/

/-- Modelled from the spec: the value `2^88 - x2 - (f2 + 1)`, computed in the
native field, on which (according to the spec text for `assertAlmostReduced`, and
the doc comment of `GadgetsBn254.ForeignFieldBn254.mul`) an 88-bit range check is
performed per element. Subtraction in the field is addition of the additive
inverse, hence the `+ 2 * p` padding before reducing `% p` (valid for canonical
`x2, f2 < p`). -/
def specAlmostReducedCheckValue (x2 f2 : ℕ) : ℕ :=
  (2 ^ 88 + 2 * p - x2 - (f2 + 1)) % p

/-- Modelled from the spec: the bound-check value that actually proves
`x[2] ≤ f[2]`, namely `x[2] + (2^88 - (f[2] + 1))` — the limb `x[2]` plus the
constant `2^88 - 1 - f[2]`, computed in the native field. An 88-bit range check on
this value passes precisely when `x[2] ≤ f[2]`. -/
def weakBoundValue (x2 f2 : ℕ) : ℕ :=
  (x2 + (2 ^ 88 - (f2 + 1))) % p

/-! ## Foreign field arithmetic (claims C2, C3)

The implementation file `foreign-field-bn254.ts` is not among the sources; the
definitions below are modelled from the spec and the `GadgetsBn254.ForeignFieldBn254`
wrapper documentation: `add`/`sub` emit a constrained limb-wise addition whose
overflow term is `0` or `±1` times the modulus (chosen by the witness so that the
result is nonnegative, and for addition so that one subtraction of `f` is applied
when the plain sum is at least `f`); `sub` fails when `x - y < -f`; `mul` witnesses
`q, r` with `x*y = q*f + r` and `r` the canonical residue; `div` witnesses the
quotient `x * y⁻¹ mod f` directly (the modular-inverse computation in the witness
block fails when `y` is not invertible mod `f`) and proves it correct via `mul`. -/

namespace ForeignFieldBn254

/-- Modelled from the spec: bigint value of `ForeignFieldBn254.add` — the sum with
an overflow correction of exactly one `f` subtracted when the plain sum reaches `f`. -/
def addValue (x y f : ℕ) : ℕ := if f ≤ x + y then x + y - f else x + y

/-- Modelled from the spec: bigint value of `ForeignFieldBn254.sub` — the
difference, corrected by adding `f` once if negative; fails (`none`) when even
`x - y + f` is negative. -/
def subValue (x y f : ℕ) : Option ℕ :=
  if y ≤ x then some (x - y) else if y ≤ x + f then some (x + f - y) else none

/-- Modelled from the spec: bigint value of `ForeignFieldBn254.mul` — the witness
computes `q, r` with `x*y = q*f + r`, `r` the canonical result. -/
def mulValue (x y f : ℕ) : ℕ := x * y % f

/-- Foreign field addition `x + y mod f` on limb tuples. -/
def add (x y : Field3) (f : ℕ) : Field3 :=
  Field3.split (addValue (Field3.toBigInt x) (Field3.toBigInt y) f)

/-- Foreign field subtraction `x - y mod f` on limb tuples. -/
def sub (x y : Field3) (f : ℕ) : Option Field3 :=
  (subValue (Field3.toBigInt x) (Field3.toBigInt y) f).map Field3.split

/-- Foreign field multiplication `x * y mod f` on limb tuples. -/
def mul (x y : Field3) (f : ℕ) : Field3 :=
  Field3.split (mulValue (Field3.toBigInt x) (Field3.toBigInt y) f)

/-- Modelled from the spec: the modular inverse witnessed by `inv`/`div`, computed
here as `a ^ (φ f - 1) mod f` (any computation of the inverse agrees mod `f` when
`a` is coprime to `f`). -/
def invMod (a f : ℕ) : ℕ := a ^ (Nat.totient f - 1) % f

/-- Modelled from the spec: bigint value of `ForeignFieldBn254.div` — the witness
block computes `x * y⁻¹ mod f`; computing the modular inverse fails (no valid
proof can be produced) when `y` is not invertible modulo `f`. -/
def divValue (x y f : ℕ) : Option ℕ :=
  if Nat.gcd (y % f) f = 1 then some (x * invMod (y % f) f % f) else none

/-- Foreign field division `x * y⁻¹ mod f` on limb tuples. -/
def div (x y : Field3) (f : ℕ) : Option Field3 :=
  (divValue (Field3.toBigInt x) (Field3.toBigInt y) f).map Field3.split

/-- The almost-reduced invariant for a limb tuple `x` modulo `f`: each limb is in
`[0, 2^88)` and the most significant limb satisfies `x[2] ≤ f[2]`. -/
def almostReduced (x : Field3) (f : ℕ) : Prop :=
  x.1 < 2 ^ l ∧ x.2.1 < 2 ^ l ∧ x.2.2 < 2 ^ l ∧ x.2.2 ≤ f / 2 ^ (2 * l)

end ForeignFieldBn254

/-! ## Range check primitives (claims C4, C5)

The implementation file `range-check-bn254.ts` is not among the sources; the
definitions below are modelled from the spec: the general n-bit check decomposes
`n` into 16-bit segments, witnesses one value per segment, constrains each segment
to 16 bits, and accumulates a running weighted sum that must equal `x` in the
native field; `rangeCheck8` witnesses a single 8-bit segment equal to `x`;
`compactMultiRangeCheck` witnesses the split `x = xy mod 2^88`, `y = xy >> 88`,
proves the packing identity `xy = x + 2^88*y` in the native field and range-checks
`x`, `y`, `z` to 88 bits. -/

/-- Modelled from the spec: satisfiability of a chained segment range check — some
assignment of `k` witnessed segment values, each `< b`, has little-endian weighted
sum (base `b`) equal to `x` in the native field. -/
def rangeCheckSegments (b k x : ℕ) : Prop :=
  ∃ cs : List ℕ, cs.length = k ∧ (∀ c ∈ cs, c < b) ∧ Nat.ofDigits b cs % p = x % p

/-- Modelled from the spec: the family of fixed-width and general range checks
(`rangeCheck8` and `rangeCheckN` for `n` a multiple of 16, the latter also backing
`rangeCheck16/32/64`), as the satisfiability of their segment decomposition. -/
def rangeCheckFamily (n x : ℕ) : Prop :=
  if n = 8 then rangeCheckSegments (2 ^ 8) 1 x else rangeCheckSegments (2 ^ 16) (n / 16) x

/-- Modelled from the spec: `compactMultiRangeCheck xy z` splits `xy` into
`x = xy mod 2^88` and `y = xy >> 88` in a witness block, range-checks `x`, `y`,
`z` to 88 bits and proves `xy = x + 2^88*y` in the native field, returning the
split `(x, y)`; `none` when a check fails. -/
def compactMultiRangeCheck (xy z : ℕ) : Option (ℕ × ℕ) :=
  let x := xy % 2 ^ l
  let y := xy / 2 ^ l
  if x < 2 ^ l ∧ y < 2 ^ l ∧ z < 2 ^ l ∧ (x + 2 ^ l * y) % p = xy % p
  then some (x, y) else none

/-! ## Bit slicing (claim C6), from `src/lib/gadgets/bit-slices-bn254.ts`

`sliceField` witnesses the `maxBits` little-endian bits of `x` (the concrete bit
pattern, truncated or zero-padded to length `maxBits`), boolean-checks each bit,
groups them into chunks of `chunkSize` bits (the first `leftoverSize` bits
complete the previous call's last chunk; the last chunk may be smaller), and
asserts that the weighted bit sum equals `x` in the native field. A chunk
collecting bits `[i, i+size)` of `x` has value `x / 2^i % 2^size`. -/

/-- The chunk loop of `sliceField`, with explicit fuel (at least `m - i`, which
bounds the iteration count since `i` advances by `chunkSize ≥ 1` each round):
starting at bit position `i`, while `i < m` collect the chunk of the next
`min (m - i) c` bits and advance by `c`. Returns the chunk list, the weighted sum
`Σ chunk * 2^position` accumulated by the loop, and the final position `i`. -/
def chunkLoopGo (x m c : ℕ) : ℕ → ℕ → List ℕ × ℕ × ℕ
  | 0, i => ([], 0, i)
  | fuel + 1, i =>
    if i < m then
      let size := min (m - i) c
      let chunk := x / 2 ^ i % 2 ^ size
      let r := chunkLoopGo x m c fuel (i + c)
      (chunk :: r.1, chunk * 2 ^ i + r.2.1, r.2.2)
    else ([], 0, i)

/-- The chunk loop of `sliceField` starting at position `i` (fuel `m - i` always
suffices). -/
def chunkLoop (x m c i : ℕ) : List ℕ × ℕ × ℕ := chunkLoopGo x m c (m - i) i

/-- In-place update of the last element of the previous call's chunk array
(`previous[previous.length - 1] = chunk.add(...)` in `sliceField`), adding `d`. -/
def updateLast (d : ℕ) : List ℕ → List ℕ
  | [] => []
  | [a] => [a + d]
  | a :: b :: rest => a :: updateLast d (b :: rest)

/-- The record returned by one `sliceField` call: the previous call's chunk list
with its last chunk completed, this call's own chunks, the number of free bits in
the last chunk, and the outcome of the `sum.assertEquals(x)` assertion. -/
structure SliceResult where
  prevUpdated : List ℕ
  chunks : List ℕ
  leftoverSize : ℕ
  ok : Bool

/-- `sliceField x maxBits chunkSize leftover` from `bit-slices-bn254.ts`, in
concrete mode: the witnessed bits are the genuine binary digits of `x` (truncated
to `maxBits`), so the completion chunk is `x mod 2^leftoverSize` and the loop
chunks are as in `chunkLoop`. Accessing a bit index at or beyond the `maxBits`-
length bit array, or the last element of an empty previous chunk list, aborts
(`none`). The assertion compares the accumulated sum with `x` in the native field. -/
def sliceField (x m c : ℕ) (leftover : Option (List ℕ × ℕ)) : Option SliceResult :=
  match leftover with
  | none =>
    let r := chunkLoop x m c 0
    some ⟨[], r.1, r.2.2 - m, (r.2.1 % p == x % p)⟩
  | some (prev, size) =>
    if size ≤ m ∧ prev ≠ [] then
      let rem := x % 2 ^ size
      let r := chunkLoop x m c size
      some ⟨updateLast (rem * 2 ^ (c - size)) prev, r.1, r.2.2 - m,
        ((rem + r.2.1) % p == x % p)⟩
    else none

/-- `sliceField3` from `bit-slices-bn254.ts`: slices a 3x88-bit bigint into
`chunkSize`-bit chunks by slicing limb 0 to `min 88 maxBits` bits, then (if
`maxBits > 88`) limb 1 to `min 88 (maxBits - 88)` bits completing limb 0's last
chunk, then (if `maxBits > 176`) limb 2 to `maxBits - 176` bits completing limb
1's last chunk; returns the concatenated chunk list (with the in-place completions
visible in the earlier lists) and the conjunction of the per-limb assertions.
Fails its precondition assert when `maxBits > 3*88`. -/
def sliceField3 (x : Field3) (maxBits c : ℕ) : Option (List ℕ × Bool) :=
  if 3 * l < maxBits then none else
  match sliceField x.1 (min l maxBits) c none with
  | none => none
  | some r0 =>
    if maxBits ≤ l then some (r0.chunks, r0.ok) else
    match sliceField x.2.1 (min l (maxBits - l)) c (some (r0.chunks, r0.leftoverSize)) with
    | none => none
    | some r1 =>
      if maxBits ≤ 2 * l then some (r1.prevUpdated ++ r1.chunks, r0.ok && r1.ok) else
      match sliceField x.2.2 (maxBits - 2 * l) c (some (r1.chunks, r1.leftoverSize)) with
      | none => none
      | some r2 =>
        some (r1.prevUpdated ++ (r2.prevUpdated ++ r2.chunks), r0.ok && r1.ok && r2.ok)

/-! ## Word/byte conversion (claims C7, C10), from `bit-slices-bn254.ts` -/

/-- `bytesToWord` from `bit-slices-bn254.ts`: the little-endian weighted sum
`Σ bytes[idx] * 2^(8*idx)` of the byte values, accumulated in the native field. -/
def bytesToWord (wordBytes : List ℕ) : ℕ := Nat.ofDigits 256 wordBytes % p

/-- `wordToBytes` from `bit-slices-bn254.ts`: witnesses the `bytesPerWord`
candidate bytes `(w >> 8k) & 0xff` from the concrete value, then asserts
`bytesToWord bytes == word` in the native field; returns the bytes on success,
`none` when the round-trip assertion fails. -/
def wordToBytes (word : ℕ) (bytesPerWord : ℕ) : Option (List ℕ) :=
  let bytes := (List.range bytesPerWord).map fun k => word / 2 ^ (8 * k) % 256
  if bytesToWord bytes = word % p then some bytes else none

/-! ## 32-bit arithmetic (claims C8, C9), from `src/lib/gadgets/arithmetic.ts`

We embed the provable (circuit-variable) path of `divMod32`: the quotient and
remainder are witnessed from the concrete value; the quotient is constrained to a
boolean when `quotientBits = 1` and otherwise range-checked to `quotientBits`
bits, the remainder is range-checked to 32 bits, and
`n == quotient * 2^32 + remainder` is asserted in the native field. -/

/-- `divMod32 n quotientBits`: witnesses `q = n >> 32` and `r = n - (q << 32)`,
applies the quotient and remainder checks and the defining equation, and returns
`(quotient, remainder)`; `none` when a check fails. -/
def divMod32 (n quotientBits : ℕ) : Option (ℕ × ℕ) :=
  let q := n / 2 ^ 32
  let r := n - q * 2 ^ 32
  if (if quotientBits = 1 then q < 2 else q < 2 ^ quotientBits) ∧ r < 2 ^ 32
      ∧ (q * 2 ^ 32 + r) % p = n % p
  then some (q, r) else none

/-- The final bit position reached by the chunk loop of `sliceField` when started
at position `i` with bound `m` and step `c`: the first position `≥ m` in the
arithmetic progression `i, i + c, i + 2c, …` (for `i ≤ m`). Its distance to `m`
is the `leftoverSize` returned by `sliceField`. -/
def chunkEnd (i m c : ℕ) : ℕ := i + c * ((m - i + c - 1) / c)

/-- `addMod32 x y`: adds in the native field and returns the remainder of
`divMod32` with a single quotient bit. -/
def addMod32 (x y : ℕ) : Option ℕ := (divMod32 ((x + y) % p) 1).map fun qr => qr.2

end GadgetsBn254

namespace GadgetsBn254

/-! ## Helper lemmas -/

theorem p_large : 2 ^ 248 < p ∧ p < 2 ^ 254 := by decide

/-- Basic split identity used throughout: `x % (b * m) = x % b + b * (x / b % m)`. -/
theorem mod_mul_decomp (x b m : ℕ) : x % (b * m) = x % b + b * (x / b % m) := by
  rcases Nat.eq_zero_or_pos b with hb | hb
  · subst hb; simp
  · have h1 : x % (b * m) % b = x % b := Nat.mod_mod_of_dvd x ⟨m, rfl⟩
    have h2 : x % (b * m) / b = x / b % m := Nat.mod_mul_right_div_self x b m
    calc x % (b * m) = b * (x % (b * m) / b) + x % (b * m) % b :=
          (Nat.div_add_mod _ b).symm
      _ = x % b + b * (x / b % m) := by rw [h1, h2]; ring

theorem Field3.toBigInt_split {v : ℕ} (hv : v < 2 ^ 264) :
    Field3.toBigInt (Field3.split v) = v := by
  unfold Field3.toBigInt Field3.split
  have h1 : v % 2 ^ 176 = v % 2 ^ 88 + 2 ^ 88 * (v / 2 ^ 88 % 2 ^ 88) := by
    have := mod_mul_decomp v (2 ^ 88) (2 ^ 88); norm_num at this ⊢; omega
  have h2 : v % 2 ^ 264 = v % 2 ^ 176 + 2 ^ 176 * (v / 2 ^ 176 % 2 ^ 88) := by
    have := mod_mul_decomp v (2 ^ 176) (2 ^ 88); norm_num at this ⊢; omega
  have h3 : v % 2 ^ 264 = v := Nat.mod_eq_of_lt hv
  dsimp only
  omega

/-! ## Claim C1 -/

/-- C1 (counterexample): the claim states that for limbs `x2, f2 < 2^88`, if
`2^88 - x2 - (f2+1)` (computed in the native field) passes an 88-bit range check
then `x2 ≤ f2`. At `x2 = 1, f2 = 0` the value is `2^88 - 2`, which lies in
`[0, 2^88)` and hence passes the check, yet `x2 = 1 > 0 = f2`. -/
theorem c1_counterexample :
    (1 : ℕ) < 2 ^ 88 ∧ (0 : ℕ) < 2 ^ 88 ∧
      specAlmostReducedCheckValue 1 0 < 2 ^ 88 ∧ ¬ ((1 : ℕ) ≤ 0) := by
  refine ⟨by norm_num, by norm_num, ?_, by norm_num⟩
  unfold specAlmostReducedCheckValue p
  decide

/-- C1 (amended): for limbs `x2, f2` in `[0, 2^88)`, the 88-bit bound check of
`assertAlmostReduced` is performed on `x[2] + (2^88 - (f[2]+1))` (not on
`2^88 - x[2] - (f[2]+1)`); that value passes an 88-bit range check (its canonical
representative lies in `[0, 2^88)`) if and only if `x[2] ≤ f[2]`, the
almost-reduced bound required by `mul`. -/
theorem c1_weakBound_iff (x2 f2 : ℕ) (hx : x2 < 2 ^ 88) (hf : f2 < 2 ^ 88) :
    weakBoundValue x2 f2 < 2 ^ 88 ↔ x2 ≤ f2 := by
  unfold weakBoundValue
  have hp : 2 ^ 248 < p := p_large.1
  have hlt : x2 + (2 ^ 88 - (f2 + 1)) < p := by
    have : (2 : ℕ) ^ 89 ≤ 2 ^ 248 := Nat.pow_le_pow_right (by norm_num) (by norm_num)
    omega
  rw [Nat.mod_eq_of_lt hlt]
  omega

/-- C1 (witness for the amended theorem): concrete instance `x2 = 3, f2 = 5`. -/
theorem c1_weakBound_iff_witness :
    (3 : ℕ) < 2 ^ 88 ∧ (5 : ℕ) < 2 ^ 88 ∧
      (weakBoundValue 3 5 < 2 ^ 88 ↔ (3 : ℕ) ≤ 5) :=
  ⟨by norm_num, by norm_num, c1_weakBound_iff 3 5 (by norm_num) (by norm_num)⟩

/-! ## Claim C2 -/

theorem almostReduced_lt {x : Field3} {f : ℕ} (h : ForeignFieldBn254.almostReduced x f) :
    Field3.toBigInt x < f + 2 ^ 176 := by
  obtain ⟨h0, h1, h2, h3⟩ := h
  unfold l at h0 h1 h2
  have hf : 2 ^ 176 * x.2.2 ≤ f := by
    calc 2 ^ 176 * x.2.2 ≤ 2 ^ 176 * (f / 2 ^ 176) := by
          exact Nat.mul_le_mul_left _ (by simpa [l] using h3)
      _ ≤ f := Nat.mul_div_le f _
  unfold Field3.toBigInt
  nlinarith

/-- C2: for `x, y` almost-reduced mod `f` and `f < 2^259`, the bigint value of
`add(x, y, f)` is congruent mod `f` to `toBigInt(x) + toBigInt(y)`, the value of
`sub(x, y, f)` (when it produces a result) is congruent mod `f` to the difference,
and the value of `mul(x, y, f)` is congruent mod `f` to the product. -/
theorem c2_add_sub_mul_congruence (x y : Field3) (f : ℕ) (hf0 : 0 < f)
    (hf : f < 2 ^ 259)
    (hx : ForeignFieldBn254.almostReduced x f) (hy : ForeignFieldBn254.almostReduced y f) :
    Field3.toBigInt (ForeignFieldBn254.add x y f) % f
        = (Field3.toBigInt x + Field3.toBigInt y) % f
    ∧ (∀ z, ForeignFieldBn254.sub x y f = some z →
        (Field3.toBigInt z : ℤ) % f = ((Field3.toBigInt x : ℤ) - Field3.toBigInt y) % f)
    ∧ Field3.toBigInt (ForeignFieldBn254.mul x y f) % f
        = (Field3.toBigInt x * Field3.toBigInt y) % f := by
  have hX := almostReduced_lt hx
  have hY := almostReduced_lt hy
  set X := Field3.toBigInt x with hXdef
  set Y := Field3.toBigInt y with hYdef
  have hcap : f + 2 ^ 176 + (f + 2 ^ 176) < 2 ^ 264 := by
    have : (2 : ℕ) ^ 259 + 2 ^ 176 + (2 ^ 259 + 2 ^ 176) ≤ 2 ^ 264 := by norm_num
    omega
  refine ⟨?_, ?_, ?_⟩
  · unfold ForeignFieldBn254.add ForeignFieldBn254.addValue
    split
    · rename_i hge
      rw [Field3.toBigInt_split (by omega)]
      conv_rhs => rw [← Nat.sub_add_cancel hge]
      rw [Nat.add_mod_right]
    · rw [Field3.toBigInt_split (by omega)]
  · intro z hz
    unfold ForeignFieldBn254.sub ForeignFieldBn254.subValue at hz
    by_cases hle : Y ≤ X
    · rw [if_pos hle, Option.map_some'] at hz
      obtain rfl := (Option.some.inj hz).symm
      rw [Field3.toBigInt_split (by omega)]
      have hcast : ((X - Y : ℕ) : ℤ) = (X : ℤ) - Y := by
        exact_mod_cast Int.ofNat_sub hle
      rw [hcast]
    · rw [if_neg hle] at hz
      by_cases hle2 : Y ≤ X + f
      · rw [if_pos hle2, Option.map_some'] at hz
        obtain rfl := (Option.some.inj hz).symm
        rw [Field3.toBigInt_split (by omega)]
        have h1 : ((X + f - Y : ℕ) : ℤ) = (X : ℤ) - Y + f * 1 := by
          push_cast [Int.ofNat_sub hle2]
          ring
        rw [h1, Int.add_mul_emod_self_left]
      · rw [if_neg hle2] at hz
        exact absurd hz (by simp)
  · unfold ForeignFieldBn254.mul ForeignFieldBn254.mulValue
    rw [← hXdef, ← hYdef]
    have hmod : X * Y % f < f := Nat.mod_lt _ hf0
    rw [Field3.toBigInt_split (by omega)]
    exact Nat.mod_mod_of_dvd _ dvd_rfl

/-- C2 (witness): concrete instance `x = 9, y = 10, f = 17` (as in the `add`
doc example). -/
theorem c2_add_sub_mul_congruence_witness :
    ((0 : ℕ) < 17 ∧ (17 : ℕ) < 2 ^ 259 ∧
        ForeignFieldBn254.almostReduced (9, 0, 0) 17 ∧
        ForeignFieldBn254.almostReduced (10, 0, 0) 17) ∧
      (Field3.toBigInt (ForeignFieldBn254.add (9, 0, 0) (10, 0, 0) 17) % 17
          = (Field3.toBigInt ((9 : ℕ), (0 : ℕ), (0 : ℕ)) + Field3.toBigInt (10, 0, 0)) % 17
        ∧ (∀ z, ForeignFieldBn254.sub (9, 0, 0) (10, 0, 0) 17 = some z →
            (Field3.toBigInt z : ℤ) % 17
              = ((Field3.toBigInt ((9 : ℕ), (0 : ℕ), (0 : ℕ)) : ℤ)
                  - Field3.toBigInt ((10 : ℕ), (0 : ℕ), (0 : ℕ))) % 17)
        ∧ Field3.toBigInt (ForeignFieldBn254.mul (9, 0, 0) (10, 0, 0) 17) % 17
          = (Field3.toBigInt ((9 : ℕ), (0 : ℕ), (0 : ℕ)) * Field3.toBigInt (10, 0, 0)) % 17) :=
  ⟨⟨by norm_num, by norm_num,
      ⟨by norm_num [l], by norm_num [l], by norm_num [l], by norm_num [l]⟩,
      ⟨by norm_num [l], by norm_num [l], by norm_num [l], by norm_num [l]⟩⟩,
    c2_add_sub_mul_congruence (9, 0, 0) (10, 0, 0) 17 (by norm_num) (by norm_num)
      ⟨by norm_num [l], by norm_num [l], by norm_num [l], by norm_num [l]⟩
      ⟨by norm_num [l], by norm_num [l], by norm_num [l], by norm_num [l]⟩⟩

/-! ## Claim C3 -/

/-- C3: for `y` coprime to `f`, `div(x, y, f)` returns a value `r` with
`r * y ≡ x (mod f)`; for `y` not invertible modulo `f`, `div(x, y, f)` fails to
produce a valid proof. -/
theorem c3_div_correct (x y : Field3) (f : ℕ) (hf1 : 1 < f) (hf : f < 2 ^ 259) :
    (Nat.gcd (Field3.toBigInt y) f = 1 →
      ∃ r, ForeignFieldBn254.div x y f = some r ∧
        Field3.toBigInt r * Field3.toBigInt y % f = Field3.toBigInt x % f)
    ∧ (Nat.gcd (Field3.toBigInt y) f ≠ 1 → ForeignFieldBn254.div x y f = none) := by
  set X := Field3.toBigInt x with hXdef
  set Y := Field3.toBigInt y with hYdef
  have hgcd_eq : Nat.gcd (Y % f) f = Nat.gcd Y f := by
    rw [← Nat.gcd_rec f Y]
    exact Nat.gcd_comm f Y
  constructor
  · intro h1
    have hc : Nat.Coprime (Y % f) f := by
      unfold Nat.Coprime
      rw [hgcd_eq]
      exact h1
    have heuler : (Y % f) ^ Nat.totient f ≡ 1 [MOD f] := Nat.ModEq.pow_totient hc
    have hphi : 0 < Nat.totient f := Nat.totient_pos.mpr (by omega)
    have hvlt : X * ForeignFieldBn254.invMod (Y % f) f % f < f := Nat.mod_lt _ (by omega)
    refine ⟨Field3.split (X * ForeignFieldBn254.invMod (Y % f) f % f), ?_, ?_⟩
    · unfold ForeignFieldBn254.div ForeignFieldBn254.divValue
      rw [← hXdef, ← hYdef, if_pos (hgcd_eq.trans h1), Option.map_some']
    · rw [Field3.toBigInt_split (by omega)]
      have hstep1 : X * ForeignFieldBn254.invMod (Y % f) f % f * Y
          ≡ X * ForeignFieldBn254.invMod (Y % f) f * Y [MOD f] :=
        Nat.ModEq.mul_right Y (Nat.mod_modEq _ f)
      have hkey : X * ForeignFieldBn254.invMod (Y % f) f * Y ≡ X [MOD f] := by
        unfold ForeignFieldBn254.invMod
        calc X * ((Y % f) ^ (Nat.totient f - 1) % f) * Y
            ≡ X * (Y % f) ^ (Nat.totient f - 1) * Y [MOD f] :=
              Nat.ModEq.mul_right Y (Nat.ModEq.mul_left X (Nat.mod_modEq _ f))
          _ ≡ X * (Y % f) ^ (Nat.totient f - 1) * (Y % f) [MOD f] :=
              Nat.ModEq.mul_left _ (Nat.mod_modEq Y f).symm
          _ = X * (Y % f) ^ Nat.totient f := by
              rw [mul_assoc, ← pow_succ, Nat.sub_add_cancel hphi]
          _ ≡ X * 1 [MOD f] := Nat.ModEq.mul_left X heuler
          _ = X := mul_one X
      exact hstep1.trans hkey
  · intro h1
    unfold ForeignFieldBn254.div ForeignFieldBn254.divValue
    rw [← hYdef, if_neg (fun hcon => h1 (hgcd_eq.symm.trans hcon))]
    rfl

/-- C3 (witness): concrete instance `x = 3, y = 2, f = 5` (coprime case) and
`y = 2, f = 4` (non-invertible case, via `x = 3, f = 4`). -/
theorem c3_div_correct_witness :
    ((1 : ℕ) < 5 ∧ (5 : ℕ) < 2 ^ 259 ∧
      (Nat.gcd (Field3.toBigInt ((2 : ℕ), (0 : ℕ), (0 : ℕ))) 5 = 1 →
        ∃ r, ForeignFieldBn254.div (3, 0, 0) (2, 0, 0) 5 = some r ∧
          Field3.toBigInt r * Field3.toBigInt ((2 : ℕ), (0 : ℕ), (0 : ℕ)) % 5
            = Field3.toBigInt ((3 : ℕ), (0 : ℕ), (0 : ℕ)) % 5))
    ∧ ((1 : ℕ) < 4 ∧
      (Nat.gcd (Field3.toBigInt ((2 : ℕ), (0 : ℕ), (0 : ℕ))) 4 ≠ 1 →
        ForeignFieldBn254.div (3, 0, 0) (2, 0, 0) 4 = none)) :=
  ⟨⟨by norm_num, by norm_num,
      (c3_div_correct (3, 0, 0) (2, 0, 0) 5 (by norm_num) (by norm_num)).1⟩,
    ⟨by norm_num,
      (c3_div_correct (3, 0, 0) (2, 0, 0) 4 (by norm_num) (by norm_num)).2⟩⟩

/-! ## Claim C4 -/

/-- The little-endian base-`b` digits of `x`, truncated to `k` digits, have
weighted sum `x mod b^k`. -/
theorem ofDigits_truncDigits (b k x : ℕ) (hb : 0 < b) :
    Nat.ofDigits b ((List.range k).map fun i => x / b ^ i % b) = x % b ^ k := by
  induction k generalizing x with
  | zero => simp [Nat.ofDigits, Nat.mod_one]
  | succ k ih =>
    rw [List.range_succ_eq_map, List.map_cons, List.map_map]
    have hfun : ((fun i => x / b ^ i % b) ∘ Nat.succ) = fun i => x / b / b ^ i % b := by
      funext i
      simp only [Function.comp_apply, pow_succ]
      rw [Nat.div_div_eq_div_mul, mul_comm (b ^ i) b, mul_comm b (b ^ i)]
    rw [hfun, Nat.ofDigits_cons, ih (x / b)]
    have hpow : b ^ (k + 1) = b * b ^ k := by ring
    rw [hpow, mod_mul_decomp]
    simp

/-- A chained segment range check with `k` segments of base `b` is satisfiable
exactly for canonical values below `b^k`. -/
theorem rangeCheckSegments_iff (b k x : ℕ) (hb : 1 < b) (hx : x < p) :
    rangeCheckSegments b k x ↔ x < b ^ k := by
  constructor
  · rintro ⟨cs, hlen, hbound, hsum⟩
    rcases le_or_lt (b ^ k) p with hbp | hbp
    · have hlt : Nat.ofDigits b cs < b ^ k := by
        have h := Nat.ofDigits_lt_base_pow_length hb hbound
        rwa [hlen] at h
      rw [Nat.mod_eq_of_lt (lt_of_lt_of_le hlt hbp), Nat.mod_eq_of_lt hx] at hsum
      omega
    · exact lt_trans hx hbp
  · intro hxk
    refine ⟨(List.range k).map fun i => x / b ^ i % b, by simp, ?_, ?_⟩
    · intro c hc
      simp only [List.mem_map, List.mem_range] at hc
      obtain ⟨i, _, rfl⟩ := hc
      exact Nat.mod_lt _ (by omega)
    · rw [ofDigits_truncDigits _ _ _ (by omega), Nat.mod_eq_of_lt hxk]

/-- C4: for `n ∈ {8, 16, 32, 64}` or any multiple of 16, and any canonical
native-field value `x`, the n-bit range check of the `rangeCheckN` family is
satisfiable precisely when `x < 2^n`; in particular a field element close to the
field modulus is never accepted as in-range. -/
theorem c4_rangeCheckN_iff (n x : ℕ) (hx : x < p) (hn : n = 8 ∨ n % 16 = 0) :
    rangeCheckFamily n x ↔ x < 2 ^ n := by
  by_cases h8 : n = 8
  · subst h8
    unfold rangeCheckFamily
    rw [if_pos rfl, rangeCheckSegments_iff (2 ^ 8) 1 x (by norm_num) hx]
    norm_num
  · have hn16 : n % 16 = 0 := by
      rcases hn with h | h
      · exact absurd h h8
      · exact h
    unfold rangeCheckFamily
    rw [if_neg h8, rangeCheckSegments_iff (2 ^ 16) (n / 16) x (by norm_num) hx,
      ← pow_mul, Nat.mul_div_cancel' (Nat.dvd_of_mod_eq_zero hn16)]

/-- C4 (witness): concrete instance `n = 32, x = 12345678`. -/
theorem c4_rangeCheckN_iff_witness :
    (12345678 : ℕ) < p ∧ ((32 : ℕ) = 8 ∨ (32 : ℕ) % 16 = 0) ∧
      (rangeCheckFamily 32 12345678 ↔ (12345678 : ℕ) < 2 ^ 32) :=
  ⟨by unfold p; norm_num, Or.inr (by norm_num),
    c4_rangeCheckN_iff 32 12345678 (by unfold p; norm_num) (Or.inr (by norm_num))⟩

/-! ## Claim C5 -/

/-- C5: for canonical `xy < 2^176` and `z < 2^88`, `compactMultiRangeCheck xy z`
succeeds and returns `(a, b)` with `a + 2^88*b = xy` and `a, b < 2^88`; it fails
when `xy ≥ 2^176` or `z ≥ 2^88`. -/
theorem c5_compactMultiRangeCheck (xy z : ℕ) (hxy : xy < p) (hz : z < p) :
    (xy < 2 ^ 176 → z < 2 ^ 88 →
      compactMultiRangeCheck xy z = some (xy % 2 ^ 88, xy / 2 ^ 88) ∧
        xy % 2 ^ 88 + 2 ^ 88 * (xy / 2 ^ 88) = xy ∧
        xy % 2 ^ 88 < 2 ^ 88 ∧ xy / 2 ^ 88 < 2 ^ 88)
    ∧ (2 ^ 176 ≤ xy ∨ 2 ^ 88 ≤ z → compactMultiRangeCheck xy z = none) := by
  have hid : xy % 2 ^ 88 + 2 ^ 88 * (xy / 2 ^ 88) = xy := Nat.mod_add_div xy (2 ^ 88)
  have hdiv : xy / 2 ^ 88 < 2 ^ 88 ↔ xy < 2 ^ 176 := by
    rw [Nat.div_lt_iff_lt_mul (by norm_num : (0 : ℕ) < 2 ^ 88)]
    norm_num
  constructor
  · intro hxy176 hz88
    refine ⟨?_, hid, Nat.mod_lt _ (by norm_num), hdiv.mpr hxy176⟩
    unfold compactMultiRangeCheck l
    rw [if_pos]
    exact ⟨Nat.mod_lt _ (by norm_num), hdiv.mpr hxy176, hz88, by rw [hid]⟩
  · intro hbad
    unfold compactMultiRangeCheck l
    rw [if_neg]
    intro hcond
    obtain ⟨h1, h2, h3, h4⟩ := hcond
    rcases hbad with hb | hb
    · exact absurd (hdiv.mp h2) (by omega)
    · omega

/-- C5 (witness): concrete instance `xy = 2^100 + 77, z = 42`. -/
theorem c5_compactMultiRangeCheck_witness :
    (2 ^ 100 + 77 : ℕ) < p ∧ (42 : ℕ) < p ∧
      ((2 ^ 100 + 77 : ℕ) < 2 ^ 176 → (42 : ℕ) < 2 ^ 88 →
        compactMultiRangeCheck (2 ^ 100 + 77) 42
            = some ((2 ^ 100 + 77) % 2 ^ 88, (2 ^ 100 + 77) / 2 ^ 88) ∧
          (2 ^ 100 + 77) % 2 ^ 88 + 2 ^ 88 * ((2 ^ 100 + 77) / 2 ^ 88) = 2 ^ 100 + 77 ∧
          (2 ^ 100 + 77) % 2 ^ 88 < 2 ^ 88 ∧ (2 ^ 100 + 77) / 2 ^ 88 < 2 ^ 88) :=
  ⟨by unfold p; norm_num, by unfold p; norm_num,
    (c5_compactMultiRangeCheck (2 ^ 100 + 77) 42 (by unfold p; norm_num)
      (by unfold p; norm_num)).1⟩



/-! ## Claim C6: chunk loop lemmas -/

theorem chunkLoopGo_of_ge {x m c fuel i : ℕ} (h : m ≤ i) :
    chunkLoopGo x m c fuel i = ([], 0, i) := by
  cases fuel with
  | zero => rfl
  | succ fuel => simp [chunkLoopGo, Nat.not_lt.mpr h]

theorem chunkLoopGo_fin_len (x m c : ℕ) : ∀ fuel i,
    (chunkLoopGo x m c fuel i).2.2 = i + c * (chunkLoopGo x m c fuel i).1.length := by
  intro fuel
  induction fuel with
  | zero => intro i; simp [chunkLoopGo]
  | succ fuel ih =>
    intro i
    by_cases h : i < m
    · simp only [chunkLoopGo, if_pos h, List.length_cons]
      rw [ih (i + c)]
      ring
    · simp [chunkLoopGo, if_neg h]

theorem chunkEnd_step {i m c : ℕ} (hc : 0 < c) (him : i < m) :
    chunkEnd i m c = chunkEnd (i + c) m c := by
  unfold chunkEnd
  by_cases hdc : m ≤ i + c
  · have h1 : m - (i + c) = 0 := by omega
    rw [h1]
    rw [Nat.div_eq_of_lt (by omega : 0 + c - 1 < c)]
    have h2 : (m - i + c - 1) / c = 1 := by
      exact Nat.div_eq_of_lt_le (by omega) (by omega)
    rw [h2]
    omega
  · have h2 : m - i + c - 1 = (m - (i + c) + c - 1) + c := by omega
    rw [h2, Nat.add_div_right _ hc]
    ring

theorem chunkEnd_bounds {i m c : ℕ} (hc : 0 < c) (him : i ≤ m) :
    m ≤ chunkEnd i m c ∧ chunkEnd i m c < m + c := by
  unfold chunkEnd
  rcases Nat.eq_or_lt_of_le him with rfl | hlt
  · rw [Nat.sub_self]
    rw [Nat.div_eq_of_lt (by omega : 0 + c - 1 < c)]
    omega
  · have hd : 0 < m - i := by omega
    have hkey := Nat.div_add_mod (m - i + c - 1) c
    have hmod : (m - i + c - 1) % c < c := Nat.mod_lt _ hc
    omega

theorem chunkLoopGo_fin (x m c : ℕ) (hc : 0 < c) : ∀ fuel i, m - i ≤ fuel →
    (chunkLoopGo x m c fuel i).2.2 = chunkEnd i m c := by
  intro fuel
  induction fuel with
  | zero =>
    intro i h1
    have hge : m ≤ i := by omega
    rw [chunkLoopGo_of_ge hge]
    unfold chunkEnd
    rw [show m - i = 0 from by omega]
    rw [Nat.div_eq_of_lt (by omega : 0 + c - 1 < c)]
    dsimp only
    omega
  | succ fuel ih =>
    intro i h1
    by_cases h : i < m
    · simp only [chunkLoopGo, if_pos h]
      rw [ih (i + c) (by omega)]
      exact (chunkEnd_step hc h).symm
    · rw [chunkLoopGo_of_ge (by omega)]
      unfold chunkEnd
      rw [show m - i = 0 from by omega]
      rw [Nat.div_eq_of_lt (by omega : 0 + c - 1 < c)]
      dsimp only
      omega

theorem chunkLoopGo_sum (x m c : ℕ) (hc : 0 < c) : ∀ fuel i, m - i ≤ fuel → i ≤ m →
    (chunkLoopGo x m c fuel i).2.1 + x % 2 ^ i = x % 2 ^ m := by
  intro fuel
  induction fuel with
  | zero =>
    intro i h1 h2
    have hi : i = m := by omega
    subst hi
    simp [chunkLoopGo]
  | succ fuel ih =>
    intro i h1 h2
    by_cases h : i < m
    · simp only [chunkLoopGo, if_pos h]
      by_cases hic : i + c ≤ m
      · have hsize : min (m - i) c = c := by omega
        rw [hsize]
        have ihr := ih (i + c) (by omega) (by omega)
        have hkey : x % 2 ^ (i + c) = x % 2 ^ i + 2 ^ i * (x / 2 ^ i % 2 ^ c) := by
          rw [pow_add]
          exact mod_mul_decomp x (2 ^ i) (2 ^ c)
        rw [mul_comm (x / 2 ^ i % 2 ^ c) (2 ^ i)]
        omega
      · have hsize : min (m - i) c = m - i := by omega
        have hr : chunkLoopGo x m c fuel (i + c) = ([], 0, i + c) :=
          chunkLoopGo_of_ge (by omega : m ≤ i + c)
        rw [hsize, hr]
        dsimp only
        have hkey : x % 2 ^ m = x % 2 ^ i + 2 ^ i * (x / 2 ^ i % 2 ^ (m - i)) := by
          conv_lhs => rw [show m = i + (m - i) from by omega]
          rw [pow_add]
          exact mod_mul_decomp x (2 ^ i) (2 ^ (m - i))
        rw [mul_comm (x / 2 ^ i % 2 ^ (m - i)) (2 ^ i)]
        omega
    · have hi : i = m := by omega
      rw [chunkLoopGo_of_ge (by omega)]
      dsimp only
      rw [hi]
      simp

theorem chunkLoopGo_chunks_lt (x m c : ℕ) : ∀ fuel i,
    ∀ ch ∈ (chunkLoopGo x m c fuel i).1, ch < 2 ^ c := by
  intro fuel
  induction fuel with
  | zero => intro i ch h; simp [chunkLoopGo] at h
  | succ fuel ih =>
    intro i ch h
    by_cases hi : i < m
    · simp only [chunkLoopGo, if_pos hi, List.mem_cons] at h
      rcases h with rfl | h
      · calc x / 2 ^ i % 2 ^ min (m - i) c < 2 ^ min (m - i) c :=
              Nat.mod_lt _ (Nat.pos_pow_of_pos _ (by norm_num))
          _ ≤ 2 ^ c := Nat.pow_le_pow_right (by norm_num) (min_le_right _ _)
      · exact ih (i + c) ch h
    · rw [chunkLoopGo_of_ge (by omega)] at h
      simp at h

theorem chunkLoopGo_ofDigits (x m c : ℕ) : ∀ fuel i,
    (chunkLoopGo x m c fuel i).2.1
      = 2 ^ i * Nat.ofDigits (2 ^ c) (chunkLoopGo x m c fuel i).1 := by
  intro fuel
  induction fuel with
  | zero => intro i; simp [chunkLoopGo]
  | succ fuel ih =>
    intro i
    by_cases h : i < m
    · simp only [chunkLoopGo, if_pos h]
      rw [Nat.ofDigits_cons, ih (i + c)]
      push_cast
      rw [pow_add]
      ring
    · rw [chunkLoopGo_of_ge (by omega)]
      simp

theorem chunkLoopGo_last (x m c : ℕ) (hc : 0 < c) : ∀ fuel i, i < m → m - i ≤ fuel →
    ∃ a, (chunkLoopGo x m c fuel i).1.getLast? = some a ∧
      a < 2 ^ (c - ((chunkLoopGo x m c fuel i).2.2 - m)) := by
  intro fuel
  induction fuel with
  | zero =>
    intro i h1 h2
    exact absurd h2 (by omega)
  | succ fuel ih =>
    intro i h1 h2
    by_cases hic : i + c < m
    · obtain ⟨a, ha, hlt⟩ := ih (i + c) hic (by omega)
      simp only [chunkLoopGo, if_pos h1]
      refine ⟨a, ?_, hlt⟩
      rcases hcons : (chunkLoopGo x m c fuel (i + c)).1 with _ | ⟨b, t⟩
      · rw [hcons] at ha
        simp at ha
      · rw [hcons] at ha
        rw [List.getLast?_cons_cons]
        exact ha
    · have hge : m ≤ i + c := by omega
      have hr : chunkLoopGo x m c fuel (i + c) = ([], 0, i + c) := chunkLoopGo_of_ge hge
      simp only [chunkLoopGo, if_pos h1, hr]
      have hsize : min (m - i) c = m - i := by omega
      have hexp : c - (i + c - m) = m - i := by omega
      rw [hsize, hexp]
      exact ⟨_, rfl, Nat.mod_lt _ (Nat.pos_pow_of_pos _ (by norm_num))⟩

theorem updateLast_length (d : ℕ) : ∀ L : List ℕ, (updateLast d L).length = L.length := by
  intro L
  induction L with
  | nil => rfl
  | cons a t ih =>
    cases t with
    | nil => rfl
    | cons b r =>
      simp only [updateLast, List.length_cons] at ih ⊢
      rw [ih]

theorem ofDigits_updateLast (B d : ℕ) : ∀ L : List ℕ, L ≠ [] →
    Nat.ofDigits B (updateLast d L) = Nat.ofDigits B L + B ^ (L.length - 1) * d := by
  intro L
  induction L with
  | nil => intro h; exact absurd rfl h
  | cons a t ih =>
    intro _
    cases t with
    | nil =>
      simp only [updateLast, Nat.ofDigits_singleton, List.length_cons, List.length_nil,
        Nat.add_sub_cancel, pow_zero, one_mul]
    | cons b r =>
      simp only [updateLast, Nat.ofDigits_cons, List.length_cons] at ih ⊢
      rw [ih (List.cons_ne_nil b r)]
      push_cast
      ring

theorem updateLast_mem_bound {B : ℕ} (d : ℕ) : ∀ L : List ℕ, (∀ a ∈ L, a < B) →
    (∀ a, L.getLast? = some a → a + d < B) → ∀ a ∈ updateLast d L, a < B := by
  intro L
  induction L with
  | nil => intro _ _ a h; simp [updateLast] at h
  | cons x t ih =>
    intro hall hlast a ha
    cases t with
    | nil =>
      simp only [updateLast, List.mem_singleton] at ha
      subst ha
      exact hlast x rfl
    | cons b r =>
      simp only [updateLast, List.mem_cons] at ha
      rcases ha with rfl | ha
      · exact hall a (List.mem_cons_self a _)
      · refine ih (fun y hy => hall y (List.mem_cons_of_mem x hy)) ?_ a ha
        intro y hy
        refine hlast y ?_
        rw [List.getLast?_cons_cons]
        exact hy

/-- The outcome of the `sum.assertEquals(x)` assertion of `sliceField`: the
accumulated sum is the low `m` bits of `x`, and for canonical `x` the assertion
holds precisely when `x < 2^m`. -/
theorem assertBool_eval {s x m : ℕ} (hs : s = x % 2 ^ m) (hx : x < p) :
    (s % p == x % p) = decide (x < 2 ^ m) := by
  subst hs
  by_cases hxm : x < 2 ^ m
  · rw [Nat.mod_eq_of_lt hxm]
    simp [hxm]
  · have hmod : x % 2 ^ m < 2 ^ m := Nat.mod_lt _ (Nat.pos_pow_of_pos _ (by norm_num))
    have hne : x % 2 ^ m ≠ x := by omega
    rw [Nat.mod_eq_of_lt (lt_of_le_of_lt (Nat.mod_le x _) hx), Nat.mod_eq_of_lt hx]
    simp [hxm, hne]

theorem sliceField_none_eval (x m c : ℕ) (hc : 0 < c) (hx : x < p) :
    sliceField x m c none = some ⟨[], (chunkLoop x m c 0).1, chunkEnd 0 m c - m,
      decide (x < 2 ^ m)⟩ := by
  have hsum : (chunkLoop x m c 0).2.1 + x % 2 ^ 0 = x % 2 ^ m :=
    chunkLoopGo_sum x m c hc (m - 0) 0 (le_refl _) (Nat.zero_le m)
  have hfin : (chunkLoop x m c 0).2.2 = chunkEnd 0 m c :=
    chunkLoopGo_fin x m c hc (m - 0) 0 (le_refl _)
  have hbool : ((chunkLoop x m c 0).2.1 % p == x % p) = decide (x < 2 ^ m) := by
    refine assertBool_eval ?_ hx
    simp only [pow_zero, Nat.mod_one] at hsum
    omega
  simp only [sliceField, hbool, hfin]

theorem sliceField_some_eval (x m c s : ℕ) (prev : List ℕ) (hc : 0 < c) (hs : s ≤ m)
    (hprev : prev ≠ []) (hx : x < p) :
    sliceField x m c (some (prev, s)) = some ⟨updateLast (x % 2 ^ s * 2 ^ (c - s)) prev,
      (chunkLoop x m c s).1, chunkEnd s m c - m, decide (x < 2 ^ m)⟩ := by
  have hsum : (chunkLoop x m c s).2.1 + x % 2 ^ s = x % 2 ^ m :=
    chunkLoopGo_sum x m c hc (m - s) s (le_refl _) hs
  have hfin : (chunkLoop x m c s).2.2 = chunkEnd s m c :=
    chunkLoopGo_fin x m c hc (m - s) s (le_refl _)
  have hbool : ((x % 2 ^ s + (chunkLoop x m c s).2.1) % p == x % p) = decide (x < 2 ^ m) := by
    refine assertBool_eval ?_ hx
    omega
  simp only [sliceField, if_pos (And.intro hs hprev), hbool, hfin]

theorem chunkLoop_ne_nil (x m c i : ℕ) (hc : 0 < c) (him : i < m) :
    (chunkLoop x m c i).1 ≠ [] := by
  obtain ⟨a, ha, _⟩ := chunkLoopGo_last x m c hc (m - i) i him (le_refl _)
  intro h
  unfold chunkLoop at h
  rw [h] at ha
  simp at ha

theorem sliceField3_low (x0 x1 x2 maxBits c : ℕ) (hc : 0 < c)
    (hx0 : x0 < p) (hmaxle : maxBits ≤ 88) :
    sliceField3 (x0, x1, x2) maxBits c
      = some ((chunkLoop x0 maxBits c 0).1, decide (x0 < 2 ^ maxBits)) := by
  unfold sliceField3 l
  rw [if_neg (by omega)]
  have hmin : min 88 maxBits = maxBits := by omega
  rw [hmin, sliceField_none_eval x0 maxBits c hc hx0]
  simp only [if_pos hmaxle]

theorem sliceField3_mid (x0 x1 x2 maxBits c : ℕ) (hc : 0 < c)
    (hx0 : x0 < p) (hx1 : x1 < p)
    (hgt : 88 < maxBits) (hle : maxBits ≤ 176)
    (hg1 : chunkEnd 0 88 c - 88 ≤ maxBits - 88) :
    sliceField3 (x0, x1, x2) maxBits c
      = some ((updateLast (x1 % 2 ^ (chunkEnd 0 88 c - 88)
              * 2 ^ (c - (chunkEnd 0 88 c - 88))) (chunkLoop x0 88 c 0).1)
            ++ (chunkLoop x1 (maxBits - 88) c (chunkEnd 0 88 c - 88)).1,
          decide (x0 < 2 ^ 88) && decide (x1 < 2 ^ (maxBits - 88))) := by
  unfold sliceField3 l
  rw [if_neg (by omega)]
  have hmin : min 88 maxBits = 88 := by omega
  have hmin1 : min 88 (maxBits - 88) = maxBits - 88 := by omega
  rw [hmin, hmin1, sliceField_none_eval x0 88 c hc hx0]
  simp only [if_neg (by omega : ¬ maxBits ≤ 88)]
  rw [sliceField_some_eval x1 (maxBits - 88) c (chunkEnd 0 88 c - 88) (chunkLoop x0 88 c 0).1
    hc hg1 (chunkLoop_ne_nil x0 88 c 0 hc (by norm_num)) hx1]
  simp only [if_pos hle]

theorem sliceField3_high (x0 x1 x2 maxBits c : ℕ) (hc : 0 < c) (hc88 : c ≤ 88)
    (hx0 : x0 < p) (hx1 : x1 < p) (hx2 : x2 < p)
    (hgt : 176 < maxBits) (hmax : maxBits ≤ 264)
    (hg2 : chunkEnd (chunkEnd 0 88 c - 88) 88 c - 88 ≤ maxBits - 176) :
    sliceField3 (x0, x1, x2) maxBits c
      = some ((updateLast (x1 % 2 ^ (chunkEnd 0 88 c - 88)
              * 2 ^ (c - (chunkEnd 0 88 c - 88))) (chunkLoop x0 88 c 0).1)
            ++ ((updateLast (x2 % 2 ^ (chunkEnd (chunkEnd 0 88 c - 88) 88 c - 88)
                * 2 ^ (c - (chunkEnd (chunkEnd 0 88 c - 88) 88 c - 88)))
                (chunkLoop x1 88 c (chunkEnd 0 88 c - 88)).1)
              ++ (chunkLoop x2 (maxBits - 176) c
                  (chunkEnd (chunkEnd 0 88 c - 88) 88 c - 88)).1),
          decide (x0 < 2 ^ 88) && decide (x1 < 2 ^ 88)
            && decide (x2 < 2 ^ (maxBits - 176))) := by
  have hs1c : chunkEnd 0 88 c - 88 < c := by
    have hb := @chunkEnd_bounds 0 88 c hc (by norm_num)
    omega
  have hs1le : chunkEnd 0 88 c - 88 ≤ 88 := by omega
  unfold sliceField3 l
  rw [if_neg (by omega)]
  have hmin : min 88 maxBits = 88 := by omega
  have hmin1 : min 88 (maxBits - 88) = 88 := by omega
  rw [hmin, hmin1, sliceField_none_eval x0 88 c hc hx0]
  simp only [if_neg (by omega : ¬ maxBits ≤ 88)]
  rw [sliceField_some_eval x1 88 c (chunkEnd 0 88 c - 88) (chunkLoop x0 88 c 0).1
    hc hs1le (chunkLoop_ne_nil x0 88 c 0 hc (by norm_num)) hx1]
  simp only [if_neg (by omega : ¬ maxBits ≤ 2 * 88)]
  rw [sliceField_some_eval x2 (maxBits - 176) c (chunkEnd (chunkEnd 0 88 c - 88) 88 c - 88)
    (chunkLoop x1 88 c (chunkEnd 0 88 c - 88)).1 hc hg2
    (chunkLoop_ne_nil x1 88 c (chunkEnd 0 88 c - 88) hc (by omega)) hx2]

theorem ofDigits_chunkLoop (x m c s : ℕ) (hc : 0 < c) (hs : s ≤ m) (hx : x < 2 ^ m) :
    2 ^ s * Nat.ofDigits (2 ^ c) (chunkLoop x m c s).1 + x % 2 ^ s = x := by
  have hsum := chunkLoopGo_sum x m c hc (m - s) s (le_refl _) hs
  have hod := chunkLoopGo_ofDigits x m c (m - s) s
  unfold chunkLoop
  rw [← hod]
  rw [Nat.mod_eq_of_lt hx] at hsum
  exact hsum

theorem len_chunkLoop (x m c s : ℕ) (hc : 0 < c) (hs : s ≤ m) :
    c * (chunkLoop x m c s).1.length = chunkEnd s m c - s := by
  have h1 := chunkLoopGo_fin_len x m c (m - s) s
  have h2 := chunkLoopGo_fin x m c hc (m - s) s (le_refl _)
  unfold chunkLoop
  have h3 := (chunkEnd_bounds hc hs).1
  omega

theorem updateLast_chunk_bound {a rem s c : ℕ} (ha : a < 2 ^ (c - s)) (hrem : rem < 2 ^ s)
    (hsc : s ≤ c) : a + rem * 2 ^ (c - s) < 2 ^ c := by
  have h1 : (rem + 1) * 2 ^ (c - s) ≤ 2 ^ s * 2 ^ (c - s) :=
    Nat.mul_le_mul_right _ (by omega)
  rw [← pow_add, show s + (c - s) = c from by omega] at h1
  calc a + rem * 2 ^ (c - s) < 2 ^ (c - s) + rem * 2 ^ (c - s) := by omega
    _ = (rem + 1) * 2 ^ (c - s) := by ring
    _ ≤ 2 ^ c := h1

theorem chunkLoop_getLast_bound (x m c s : ℕ) (hc : 0 < c) (hs : s < m) :
    ∀ a, (chunkLoop x m c s).1.getLast? = some a → a < 2 ^ (c - (chunkEnd s m c - m)) := by
  intro a ha
  obtain ⟨b, hb, hblt⟩ := chunkLoopGo_last x m c hc (m - s) s hs (le_refl _)
  have hfin := chunkLoopGo_fin x m c hc (m - s) s (le_refl _)
  unfold chunkLoop at ha
  rw [hb] at ha
  obtain rfl := Option.some.inj ha
  rw [hfin] at hblt
  exact hblt

theorem ofDigits_updateLast_append (B d : ℕ) (P L : List ℕ) (hP : P ≠ []) :
    Nat.ofDigits B (updateLast d P ++ L)
      = Nat.ofDigits B P + B ^ (P.length - 1) * d + B ^ P.length * Nat.ofDigits B L := by
  rw [Nat.ofDigits_append, ofDigits_updateLast B d P hP, updateLast_length]

theorem sliceField3_success (x0 x1 x2 maxBits c : ℕ)
    (hx0 : x0 < 2 ^ 88) (hx1 : x1 < 2 ^ 88) (hx2 : x2 < 2 ^ 88)
    (hc : 0 < c) (hc88 : c ≤ 88) (hmax : maxBits ≤ 264)
    (hg1 : 88 < maxBits → chunkEnd 0 88 c - 88 ≤ maxBits - 88)
    (hg2 : 176 < maxBits → chunkEnd (chunkEnd 0 88 c - 88) 88 c - 88 ≤ maxBits - 176)
    (hvlt : x0 + 2 ^ 88 * x1 + 2 ^ 176 * x2 < 2 ^ maxBits) :
    ∃ chunks, sliceField3 (x0, x1, x2) maxBits c = some (chunks, true) ∧
      (∀ ch ∈ chunks, ch < 2 ^ c) ∧
      Nat.ofDigits (2 ^ c) chunks = x0 + 2 ^ 88 * x1 + 2 ^ 176 * x2 := by
  have hp248 := p_large.1
  have hpow88 : (2 : ℕ) ^ 88 ≤ 2 ^ 248 := Nat.pow_le_pow_right (by norm_num) (by norm_num)
  have hx0p : x0 < p := by omega
  have hx1p : x1 < p := by omega
  have hx2p : x2 < p := by omega
  have hs1b := @chunkEnd_bounds 0 88 c hc (by norm_num)
  have hs1c : chunkEnd 0 88 c - 88 < c := by omega
  set s1 := chunkEnd 0 88 c - 88 with hs1def
  rcases le_or_lt maxBits 88 with hA | hgt88
  · -- only limb 0 is processed
    have hmle : (2 : ℕ) ^ maxBits ≤ 2 ^ 88 := Nat.pow_le_pow_right (by norm_num) hA
    have hb1 : 2 ^ 88 * x1 ≤ x0 + 2 ^ 88 * x1 + 2 ^ 176 * x2 := by omega
    have hb2 : 2 ^ 176 * x2 ≤ x0 + 2 ^ 88 * x1 + 2 ^ 176 * x2 := by omega
    have hx10 : x1 = 0 := by
      by_contra hne
      have : (2 : ℕ) ^ 88 * 1 ≤ 2 ^ 88 * x1 := Nat.mul_le_mul_left _ (by omega)
      omega
    have hx20 : x2 = 0 := by
      by_contra hne
      have h1 : (2 : ℕ) ^ 176 * 1 ≤ 2 ^ 176 * x2 := Nat.mul_le_mul_left _ (by omega)
      have h2 : (2 : ℕ) ^ 88 ≤ 2 ^ 176 := Nat.pow_le_pow_right (by norm_num) (by norm_num)
      omega
    subst hx10
    subst hx20
    have hx0m : x0 < 2 ^ maxBits := by omega
    rw [sliceField3_low x0 0 0 maxBits c hc hx0p hA, decide_eq_true hx0m]
    refine ⟨(chunkLoop x0 maxBits c 0).1, rfl, ?_, ?_⟩
    · exact chunkLoopGo_chunks_lt x0 maxBits c (maxBits - 0) 0
    · have hOD := ofDigits_chunkLoop x0 maxBits c 0 hc (Nat.zero_le _) hx0m
      simp only [pow_zero, one_mul, Nat.mod_one, Nat.add_zero] at hOD
      omega
  rcases le_or_lt maxBits 176 with hB | hgt176
  · -- limbs 0 and 1 are processed
    have hs1m1 : s1 ≤ maxBits - 88 := hg1 hgt88
    have hmle : (2 : ℕ) ^ maxBits ≤ 2 ^ 176 := Nat.pow_le_pow_right (by norm_num) hB
    have hb2 : 2 ^ 176 * x2 ≤ x0 + 2 ^ 88 * x1 + 2 ^ 176 * x2 := by omega
    have hx20 : x2 = 0 := by
      by_contra hne
      have : (2 : ℕ) ^ 176 * 1 ≤ 2 ^ 176 * x2 := Nat.mul_le_mul_left _ (by omega)
      omega
    subst hx20
    have hsplit : (2 : ℕ) ^ maxBits = 2 ^ 88 * 2 ^ (maxBits - 88) := by
      rw [← pow_add]
      congr 1
      omega
    have hx1m : x1 < 2 ^ (maxBits - 88) := by
      by_contra hge
      have : 2 ^ 88 * 2 ^ (maxBits - 88) ≤ 2 ^ 88 * x1 := Nat.mul_le_mul_left _ (by omega)
      omega
    rw [sliceField3_mid x0 x1 0 maxBits c hc hx0p hx1p hgt88 hB hs1m1,
      decide_eq_true hx0, decide_eq_true hx1m]
    refine ⟨_, rfl, ?_, ?_⟩
    · simp only [← hs1def]
      intro ch hch
      rcases List.mem_append.mp hch with hch | hch
      · refine updateLast_mem_bound _ _ (chunkLoopGo_chunks_lt x0 88 c (88 - 0) 0) ?_ ch hch
        intro a ha
        have halt := chunkLoop_getLast_bound x0 88 c 0 hc (by norm_num) a ha
        refine updateLast_chunk_bound halt (Nat.mod_lt _ ?_) (by omega)
        exact Nat.pos_pow_of_pos _ (by norm_num)
      · exact chunkLoopGo_chunks_lt x1 (maxBits - 88) c _ _ ch hch
    · simp only [← hs1def]
      rw [ofDigits_updateLast_append _ _ _ _ (chunkLoop_ne_nil x0 88 c 0 hc (by norm_num))]
      have hOD0 := ofDigits_chunkLoop x0 88 c 0 hc (Nat.zero_le _) hx0
      simp only [pow_zero, one_mul, Nat.mod_one, Nat.add_zero] at hOD0
      have hOD1 := ofDigits_chunkLoop x1 (maxBits - 88) c s1 hc hs1m1 hx1m
      have hcn0 : c * (chunkLoop x0 88 c 0).1.length = 88 + s1 := by
        have := len_chunkLoop x0 88 c 0 hc (by norm_num)
        omega
      have hn0 : (chunkLoop x0 88 c 0).1.length ≠ 0 := by
        intro h
        rw [h, mul_zero] at hcn0
        omega
      obtain ⟨k0, hk0⟩ : ∃ k, (chunkLoop x0 88 c 0).1.length = k + 1 :=
        ⟨(chunkLoop x0 88 c 0).1.length - 1, by omega⟩
      have hck0 : c * k0 + c = 88 + s1 := by
        rw [hk0, mul_add, mul_one] at hcn0
        omega
      have e1 : ((2 : ℕ) ^ c) ^ ((chunkLoop x0 88 c 0).1.length - 1)
          * (x1 % 2 ^ s1 * 2 ^ (c - s1)) = 2 ^ 88 * (x1 % 2 ^ s1) := by
        rw [hk0]
        simp only [Nat.add_sub_cancel]
        rw [← pow_mul]
        rw [show (2 : ℕ) ^ (c * k0) * (x1 % 2 ^ s1 * 2 ^ (c - s1))
            = x1 % 2 ^ s1 * (2 ^ (c * k0) * 2 ^ (c - s1)) from by ring]
        rw [← pow_add, show c * k0 + (c - s1) = 88 from by omega]
        ring
      have e2 : ((2 : ℕ) ^ c) ^ (chunkLoop x0 88 c 0).1.length = 2 ^ 88 * 2 ^ s1 := by
        rw [← pow_mul, hcn0, pow_add]
      rw [e1, e2, hOD0]
      rw [mul_assoc (2 ^ 88 : ℕ) (2 ^ s1) _]
      omega
  · -- all three limbs are processed
    have hs2b := @chunkEnd_bounds s1 88 c hc (by omega)
    have hs2c : chunkEnd s1 88 c - 88 < c := by omega
    set s2 := chunkEnd s1 88 c - 88 with hs2def
    have hs2m2 : s2 ≤ maxBits - 176 := hg2 hgt176
    have hsplit : (2 : ℕ) ^ maxBits = 2 ^ 176 * 2 ^ (maxBits - 176) := by
      rw [← pow_add]
      congr 1
      omega
    have hx2m : x2 < 2 ^ (maxBits - 176) := by
      by_contra hge
      have : 2 ^ 176 * 2 ^ (maxBits - 176) ≤ 2 ^ 176 * x2 := Nat.mul_le_mul_left _ (by omega)
      omega
    rw [sliceField3_high x0 x1 x2 maxBits c hc hc88 hx0p hx1p hx2p hgt176 hmax hs2m2,
      decide_eq_true hx0, decide_eq_true hx1, decide_eq_true hx2m]
    refine ⟨_, rfl, ?_, ?_⟩
    · simp only [← hs1def, ← hs2def]
      intro ch hch
      rcases List.mem_append.mp hch with hch | hch
      · refine updateLast_mem_bound _ _ (chunkLoopGo_chunks_lt x0 88 c (88 - 0) 0) ?_ ch hch
        intro a ha
        have halt := chunkLoop_getLast_bound x0 88 c 0 hc (by norm_num) a ha
        refine updateLast_chunk_bound halt (Nat.mod_lt _ ?_) (by omega)
        exact Nat.pos_pow_of_pos _ (by norm_num)
      rcases List.mem_append.mp hch with hch | hch
      · refine updateLast_mem_bound _ _ (chunkLoopGo_chunks_lt x1 88 c (88 - s1) s1) ?_ ch hch
        intro a ha
        have halt := chunkLoop_getLast_bound x1 88 c s1 hc (by omega) a ha
        refine updateLast_chunk_bound halt (Nat.mod_lt _ ?_) (by omega)
        exact Nat.pos_pow_of_pos _ (by norm_num)
      · exact chunkLoopGo_chunks_lt x2 (maxBits - 176) c _ _ ch hch
    · simp only [← hs1def, ← hs2def]
      rw [ofDigits_updateLast_append _ _ _ _ (chunkLoop_ne_nil x0 88 c 0 hc (by norm_num))]
      rw [ofDigits_updateLast_append _ _ _ _ (chunkLoop_ne_nil x1 88 c s1 hc (by omega))]
      have hOD0 := ofDigits_chunkLoop x0 88 c 0 hc (Nat.zero_le _) hx0
      simp only [pow_zero, one_mul, Nat.mod_one, Nat.add_zero] at hOD0
      have hOD1 := ofDigits_chunkLoop x1 88 c s1 hc (by omega) hx1
      have hOD2 := ofDigits_chunkLoop x2 (maxBits - 176) c s2 hc hs2m2 hx2m
      have hcn0 : c * (chunkLoop x0 88 c 0).1.length = 88 + s1 := by
        have := len_chunkLoop x0 88 c 0 hc (by norm_num)
        omega
      have hcn1 : c * (chunkLoop x1 88 c s1).1.length = 88 + s2 - s1 := by
        have := len_chunkLoop x1 88 c s1 hc (by omega)
        omega
      have hn0 : (chunkLoop x0 88 c 0).1.length ≠ 0 := by
        intro h
        rw [h, mul_zero] at hcn0
        omega
      have hn1 : (chunkLoop x1 88 c s1).1.length ≠ 0 := by
        intro h
        rw [h, mul_zero] at hcn1
        omega
      obtain ⟨k0, hk0⟩ : ∃ k, (chunkLoop x0 88 c 0).1.length = k + 1 :=
        ⟨(chunkLoop x0 88 c 0).1.length - 1, by omega⟩
      obtain ⟨k1, hk1⟩ : ∃ k, (chunkLoop x1 88 c s1).1.length = k + 1 :=
        ⟨(chunkLoop x1 88 c s1).1.length - 1, by omega⟩
      have hck0 : c * k0 + c = 88 + s1 := by
        rw [hk0, mul_add, mul_one] at hcn0
        omega
      have hck1 : c * k1 + c = 88 + s2 - s1 := by
        rw [hk1, mul_add, mul_one] at hcn1
        omega
      have e1 : ((2 : ℕ) ^ c) ^ ((chunkLoop x0 88 c 0).1.length - 1)
          * (x1 % 2 ^ s1 * 2 ^ (c - s1)) = 2 ^ 88 * (x1 % 2 ^ s1) := by
        rw [hk0]
        simp only [Nat.add_sub_cancel]
        rw [← pow_mul]
        rw [show (2 : ℕ) ^ (c * k0) * (x1 % 2 ^ s1 * 2 ^ (c - s1))
            = x1 % 2 ^ s1 * (2 ^ (c * k0) * 2 ^ (c - s1)) from by ring]
        rw [← pow_add, show c * k0 + (c - s1) = 88 from by omega]
        ring
      have e2 : ((2 : ℕ) ^ c) ^ (chunkLoop x0 88 c 0).1.length = 2 ^ 88 * 2 ^ s1 := by
        rw [← pow_mul, hcn0, pow_add]
      have e3 : ((2 : ℕ) ^ c) ^ ((chunkLoop x1 88 c s1).1.length - 1)
          * (x2 % 2 ^ s2 * 2 ^ (c - s2)) = 2 ^ (88 - s1) * (x2 % 2 ^ s2) := by
        rw [hk1]
        simp only [Nat.add_sub_cancel]
        rw [← pow_mul]
        rw [show (2 : ℕ) ^ (c * k1) * (x2 % 2 ^ s2 * 2 ^ (c - s2))
            = x2 % 2 ^ s2 * (2 ^ (c * k1) * 2 ^ (c - s2)) from by ring]
        rw [← pow_add, show c * k1 + (c - s2) = 88 - s1 from by omega]
        ring
      have e4 : ((2 : ℕ) ^ c) ^ (chunkLoop x1 88 c s1).1.length
          = 2 ^ (88 - s1) * 2 ^ s2 := by
        rw [← pow_mul, hcn1, ← pow_add]
        congr 1
        omega
      have e5 : (2 : ℕ) ^ 88 * 2 ^ s1 * (2 ^ (88 - s1) * (x2 % 2 ^ s2))
          = 2 ^ 176 * (x2 % 2 ^ s2) := by
        rw [show (2 : ℕ) ^ 88 * 2 ^ s1 * (2 ^ (88 - s1) * (x2 % 2 ^ s2))
            = 2 ^ 88 * (2 ^ s1 * 2 ^ (88 - s1)) * (x2 % 2 ^ s2) from by ring]
        rw [← pow_add, show s1 + (88 - s1) = 88 from by omega, ← pow_add]
      have e6 : (2 : ℕ) ^ 88 * 2 ^ s1 * (2 ^ (88 - s1) * 2 ^ s2
            * Nat.ofDigits (2 ^ c) (chunkLoop x2 (maxBits - 176) c s2).1)
          = 2 ^ 176 * (2 ^ s2 * Nat.ofDigits (2 ^ c) (chunkLoop x2 (maxBits - 176) c s2).1) := by
        rw [show (2 : ℕ) ^ 88 * 2 ^ s1 * (2 ^ (88 - s1) * 2 ^ s2
              * Nat.ofDigits (2 ^ c) (chunkLoop x2 (maxBits - 176) c s2).1)
            = 2 ^ 88 * (2 ^ s1 * 2 ^ (88 - s1))
              * (2 ^ s2 * Nat.ofDigits (2 ^ c) (chunkLoop x2 (maxBits - 176) c s2).1)
            from by ring]
        rw [← pow_add, show s1 + (88 - s1) = 88 from by omega, ← pow_add]
      rw [mul_add, mul_add, e1, e2, e3, hOD0, e4, e5, e6]
      rw [mul_assoc (2 ^ 88 : ℕ) (2 ^ s1) _]
      omega

theorem sliceField3_failure (x0 x1 x2 maxBits c : ℕ)
    (hx0 : x0 < 2 ^ 88) (hx1 : x1 < 2 ^ 88) (hx2 : x2 < 2 ^ 88)
    (hc : 0 < c) (hc88 : c ≤ 88) (hmax : maxBits ≤ 264)
    (hg1 : 88 < maxBits → chunkEnd 0 88 c - 88 ≤ maxBits - 88)
    (hg2 : 176 < maxBits → chunkEnd (chunkEnd 0 88 c - 88) 88 c - 88 ≤ maxBits - 176)
    (hvge : 2 ^ maxBits ≤ x0 + 2 ^ 88 * x1 + 2 ^ 176 * x2)
    (hz1 : maxBits ≤ 88 → x1 = 0 ∧ x2 = 0)
    (hz2 : maxBits ≤ 176 → x2 = 0) :
    ∀ res, sliceField3 (x0, x1, x2) maxBits c ≠ some (res, true) := by
  have hp248 := p_large.1
  have hpow88 : (2 : ℕ) ^ 88 ≤ 2 ^ 248 := Nat.pow_le_pow_right (by norm_num) (by norm_num)
  have hx0p : x0 < p := by omega
  have hx1p : x1 < p := by omega
  have hx2p : x2 < p := by omega
  intro res hres
  rcases le_or_lt maxBits 88 with hA | hgt88
  · obtain ⟨h10, h20⟩ := hz1 hA
    subst h10
    subst h20
    rw [sliceField3_low x0 0 0 maxBits c hc hx0p hA] at hres
    have hx0ge : ¬ x0 < 2 ^ maxBits := by omega
    rw [decide_eq_false hx0ge] at hres
    simp at hres
  rcases le_or_lt maxBits 176 with hB | hgt176
  · have h20 := hz2 hB
    subst h20
    have hs1m1 := hg1 hgt88
    rw [sliceField3_mid x0 x1 0 maxBits c hc hx0p hx1p hgt88 hB hs1m1] at hres
    have hsplit : (2 : ℕ) ^ maxBits = 2 ^ 88 * 2 ^ (maxBits - 88) := by
      rw [← pow_add]
      congr 1
      omega
    have hx1ge : ¬ x1 < 2 ^ (maxBits - 88) := by
      intro hlt
      have h2 : 2 ^ 88 * (x1 + 1) ≤ 2 ^ 88 * 2 ^ (maxBits - 88) :=
        Nat.mul_le_mul_left _ (by omega)
      have h3 : (2 : ℕ) ^ 88 * (x1 + 1) = 2 ^ 88 * x1 + 2 ^ 88 := by ring
      omega
    rw [decide_eq_false hx1ge] at hres
    simp at hres
  · have hs2m2 := hg2 hgt176
    rw [sliceField3_high x0 x1 x2 maxBits c hc hc88 hx0p hx1p hx2p hgt176 hmax hs2m2] at hres
    have hsplit : (2 : ℕ) ^ maxBits = 2 ^ 176 * 2 ^ (maxBits - 176) := by
      rw [← pow_add]
      congr 1
      omega
    have hx2ge : ¬ x2 < 2 ^ (maxBits - 176) := by
      intro hlt
      have h2 : 2 ^ 176 * (x2 + 1) ≤ 2 ^ 176 * 2 ^ (maxBits - 176) :=
        Nat.mul_le_mul_left _ (by omega)
      have h3 : (2 : ℕ) ^ 176 * (x2 + 1) = 2 ^ 176 * x2 + 2 ^ 176 := by ring
      have h4 : 2 ^ 88 * x1 ≤ 2 ^ 88 * (2 ^ 88 - 1) := Nat.mul_le_mul_left _ (by omega)
      omega
    rw [decide_eq_false hx2ge] at hres
    simp at hres

/-- C6 (counterexample): the claim says `sliceField3` acts as a range check to
`maxBits` — if the combined value is `≥ 2^maxBits` the sum assertion fails. At
`[x0, x1, x2] = [0, 1, 0]` with `maxBits = 88` and `chunkSize = 88` the combined
value is `2^88 ≥ 2^maxBits` (all limbs in `[0, 2^88)`), yet the gadget succeeds:
with `maxBits ≤ 88` it returns after slicing limb 0 only and never constrains
limbs 1 and 2. -/
theorem c6_counterexample :
    (0 : ℕ) < 2 ^ 88 ∧ (1 : ℕ) < 2 ^ 88 ∧
      sliceField3 (0, 1, 0) 88 88 = some ([0], true) ∧
      2 ^ 88 ≤ Field3.toBigInt ((0 : ℕ), (1 : ℕ), (0 : ℕ)) := by
  refine ⟨by norm_num, by norm_num, ?_, by decide⟩
  decide

/-- C6 (amended): for a `Field3` with limbs in `[0, 2^88)`, `maxBits ≤ 264` and a
chunk size `0 < chunkSize ≤ 88` whose loop boundaries do not overrun a limb's
witnessed bit array (the `chunkEnd` side conditions, satisfied e.g. whenever
`chunkSize` divides `maxBits`): if the combined value `v = x0 + 2^88*x1 + 2^176*x2`
is `< 2^maxBits` then `sliceField3` succeeds and returns an ordered chunk sequence,
each chunk in `[0, 2^chunkSize)`, whose weighted sum `Σ cᵢ·2^(i·chunkSize)` equals
`v`; and if `v ≥ 2^maxBits` then the gadget fails — provided the limbs beyond
those it processes are zero (`x1 = x2 = 0` when `maxBits ≤ 88`, `x2 = 0` when
`maxBits ≤ 176`; without that proviso the gadget is not a range check on `v`, see
the counterexample). -/
theorem c6_sliceField3 (x0 x1 x2 maxBits c : ℕ)
    (hx0 : x0 < 2 ^ 88) (hx1 : x1 < 2 ^ 88) (hx2 : x2 < 2 ^ 88)
    (hc : 0 < c) (hc88 : c ≤ 88) (hmax : maxBits ≤ 264)
    (hg1 : 88 < maxBits → chunkEnd 0 88 c - 88 ≤ maxBits - 88)
    (hg2 : 176 < maxBits → chunkEnd (chunkEnd 0 88 c - 88) 88 c - 88 ≤ maxBits - 176) :
    (x0 + 2 ^ 88 * x1 + 2 ^ 176 * x2 < 2 ^ maxBits →
      ∃ chunks, sliceField3 (x0, x1, x2) maxBits c = some (chunks, true) ∧
        (∀ ch ∈ chunks, ch < 2 ^ c) ∧
        Nat.ofDigits (2 ^ c) chunks = x0 + 2 ^ 88 * x1 + 2 ^ 176 * x2) ∧
    (2 ^ maxBits ≤ x0 + 2 ^ 88 * x1 + 2 ^ 176 * x2 →
      (maxBits ≤ 88 → x1 = 0 ∧ x2 = 0) →
      (maxBits ≤ 176 → x2 = 0) →
      ∀ res, sliceField3 (x0, x1, x2) maxBits c ≠ some (res, true)) :=
  ⟨fun hvlt => sliceField3_success x0 x1 x2 maxBits c hx0 hx1 hx2 hc hc88 hmax hg1 hg2 hvlt,
    fun hvge hz1 hz2 =>
      sliceField3_failure x0 x1 x2 maxBits c hx0 hx1 hx2 hc hc88 hmax hg1 hg2 hvge hz1 hz2⟩

/-- C6 (witness for the amended theorem): concrete instance
`[x0, x1, x2] = [5, 3, 1]`, `maxBits = 264`, `chunkSize = 8`. -/
theorem c6_sliceField3_witness :
    ((5 : ℕ) < 2 ^ 88 ∧ (3 : ℕ) < 2 ^ 88 ∧ (1 : ℕ) < 2 ^ 88 ∧ (0 : ℕ) < 8 ∧ (8 : ℕ) ≤ 88
        ∧ (264 : ℕ) ≤ 264
        ∧ (88 < 264 → chunkEnd 0 88 8 - 88 ≤ 264 - 88)
        ∧ (176 < 264 → chunkEnd (chunkEnd 0 88 8 - 88) 88 8 - 88 ≤ 264 - 176)) ∧
      ((5 + 2 ^ 88 * 3 + 2 ^ 176 * 1 < 2 ^ 264 →
        ∃ chunks, sliceField3 (5, 3, 1) 264 8 = some (chunks, true) ∧
          (∀ ch ∈ chunks, ch < 2 ^ 8) ∧
          Nat.ofDigits (2 ^ 8) chunks = 5 + 2 ^ 88 * 3 + 2 ^ 176 * 1) ∧
      (2 ^ 264 ≤ 5 + 2 ^ 88 * 3 + 2 ^ 176 * 1 →
        ((264 : ℕ) ≤ 88 → (3 : ℕ) = 0 ∧ (1 : ℕ) = 0) →
        ((264 : ℕ) ≤ 176 → (1 : ℕ) = 0) →
        ∀ res, sliceField3 (5, 3, 1) 264 8 ≠ some (res, true))) :=
  ⟨⟨by norm_num, by norm_num, by norm_num, by norm_num, by norm_num, by norm_num,
      fun h => by decide, fun h => by decide⟩,
    c6_sliceField3 5 3 1 264 8 (by norm_num) (by norm_num) (by norm_num) (by norm_num)
      (by norm_num) (by norm_num) (fun h => by decide) (fun h => by decide)⟩

/-! ## Claims C7, C10 -/

/-- Recovering the little-endian base-256 digits of the weighted sum of a byte
list gives back the byte list. -/
theorem digits_ofDigits_bytes : ∀ B : List ℕ, (∀ b ∈ B, b < 256) →
    (List.range B.length).map (fun i => Nat.ofDigits 256 B / 2 ^ (8 * i) % 256) = B := by
  intro B
  induction B with
  | nil => intro _; simp
  | cons b t ih =>
    intro hB
    have hb : b < 256 := hB b (List.mem_cons_self b t)
    simp only [List.length_cons, List.range_succ_eq_map, List.map_cons, List.map_map]
    have hhead : Nat.ofDigits 256 (b :: t) / 2 ^ (8 * 0) % 256 = b := by
      simp only [Nat.ofDigits_cons, mul_zero, pow_zero, Nat.div_one, Nat.cast_id]
      rw [Nat.add_mul_mod_self_left]
      exact Nat.mod_eq_of_lt hb
    have hfun : ((fun i => Nat.ofDigits 256 (b :: t) / 2 ^ (8 * i) % 256) ∘ Nat.succ)
        = fun i => Nat.ofDigits 256 t / 2 ^ (8 * i) % 256 := by
      funext i
      simp only [Function.comp_apply, Nat.ofDigits_cons, Nat.cast_id]
      have h1 : 8 * (i + 1) = 8 + 8 * i := by ring
      rw [h1, pow_add, ← Nat.div_div_eq_div_mul]
      congr 2
      rw [show (2 : ℕ) ^ 8 = 256 from by norm_num]
      rw [Nat.add_mul_div_left _ _ (by norm_num : (0 : ℕ) < 256)]
      rw [Nat.div_eq_of_lt hb]
      omega
    rw [hhead, hfun, ih (fun y hy => hB y (List.mem_cons_of_mem b hy))]

/-- C7 (counterexample): the round trip fails for byte sequences of length 32,
because the weighted sum wraps around the native modulus: at `B = [255; …; 255]`
(32 bytes), `bytesToWord B` is `(2^256 - 1) mod p`, whose witnessed byte
decomposition is not `B`. -/
theorem c7_counterexample :
    (∀ b ∈ List.replicate 32 (255 : ℕ), b < 256) ∧
      wordToBytes (bytesToWord (List.replicate 32 (255 : ℕ))) 32
        ≠ some (List.replicate 32 (255 : ℕ)) := by
  constructor
  · intro b hb
    rw [List.eq_of_mem_replicate hb]
    norm_num
  · decide

/-- C7 (amended): for every sequence `B` of `k ≤ 31` byte values (so that the
weighted sum stays below the native modulus), `wordToBytes (bytesToWord B) k`
succeeds and returns a byte sequence equal to `B`; for `k ≥ 32` the sum can wrap
around the native modulus and the round trip can return different bytes. -/
theorem c7_roundTrip (B : List ℕ) (k : ℕ) (hlen : B.length = k) (hB : ∀ b ∈ B, b < 256)
    (hk : k ≤ 31) : wordToBytes (bytesToWord B) k = some B := by
  subst hlen
  have hub : Nat.ofDigits 256 B < 256 ^ B.length :=
    Nat.ofDigits_lt_base_pow_length (by norm_num) hB
  have hcap : (256 : ℕ) ^ B.length ≤ 2 ^ 248 := by
    calc (256 : ℕ) ^ B.length ≤ 256 ^ 31 := Nat.pow_le_pow_right (by norm_num) hk
      _ ≤ 2 ^ 248 := by
          rw [show (256 : ℕ) = 2 ^ 8 from by norm_num, ← pow_mul]
  have hword : bytesToWord B = Nat.ofDigits 256 B := by
    unfold bytesToWord
    have := p_large.1
    exact Nat.mod_eq_of_lt (by omega)
  rw [hword]
  unfold wordToBytes
  rw [digits_ofDigits_bytes B hB]
  rw [if_pos (show bytesToWord B = Nat.ofDigits 256 B % p from rfl)]

/-- C7 (witness for the amended theorem): concrete instance `B = [1, 2, 3]`. -/
theorem c7_roundTrip_witness :
    ([(1 : ℕ), 2, 3].length = 3 ∧ (∀ b ∈ [(1 : ℕ), 2, 3], b < 256) ∧ (3 : ℕ) ≤ 31) ∧
      wordToBytes (bytesToWord [1, 2, 3]) 3 = some [1, 2, 3] :=
  ⟨⟨rfl, by decide, by norm_num⟩,
    c7_roundTrip [1, 2, 3] 3 rfl (by decide) (by norm_num)⟩

/-- C10: for every canonical field value `word` and byte count `k`,
`wordToBytes word k` succeeds exactly when `word < 2^(8k)`; on success the
returned bytes are the little-endian base-256 digits of `word`. -/
theorem c10_wordToBytes (w k : ℕ) (hw : w < p) :
    ((wordToBytes w k).isSome ↔ w < 2 ^ (8 * k)) ∧
    (w < 2 ^ (8 * k) →
      wordToBytes w k = some ((List.range k).map fun i => w / 2 ^ (8 * i) % 256)) := by
  have h256 : (256 : ℕ) ^ k = 2 ^ (8 * k) := by
    rw [show (256 : ℕ) = 2 ^ 8 from by norm_num, ← pow_mul]
  have hfun : ((List.range k).map fun i => w / 2 ^ (8 * i) % 256)
      = (List.range k).map fun i => w / 256 ^ i % 256 := by
    apply List.map_congr_left
    intro i _
    rw [show (2 : ℕ) ^ (8 * i) = 256 ^ i from by
      rw [show (256 : ℕ) = 2 ^ 8 from by norm_num, ← pow_mul]]
  have hsum : Nat.ofDigits 256 ((List.range k).map fun i => w / 256 ^ i % 256)
      = w % 256 ^ k := ofDigits_truncDigits 256 k w (by norm_num)
  have hcond : (bytesToWord ((List.range k).map fun i => w / 2 ^ (8 * i) % 256) = w % p)
      ↔ w < 2 ^ (8 * k) := by
    unfold bytesToWord
    rw [hfun, hsum]
    have h1 : w % 256 ^ k ≤ w := Nat.mod_le _ _
    rw [Nat.mod_eq_of_lt (by omega : w % 256 ^ k < p), Nat.mod_eq_of_lt hw]
    constructor
    · intro h
      have h2 : w % 256 ^ k < 256 ^ k := Nat.mod_lt _ (Nat.pos_pow_of_pos _ (by norm_num))
      omega
    · intro h
      exact Nat.mod_eq_of_lt (by omega)
  constructor
  · by_cases hwk : w < 2 ^ (8 * k)
    · unfold wordToBytes
      rw [if_pos (hcond.mpr hwk)]
      simp [hwk]
    · unfold wordToBytes
      rw [if_neg (fun hcc => hwk (hcond.mp hcc))]
      simp [hwk]
  · intro hlt
    unfold wordToBytes
    rw [if_pos (hcond.mpr hlt)]

/-- C10 (witness): concrete instance `word = 300, k = 2`. -/
theorem c10_wordToBytes_witness :
    (300 : ℕ) < p ∧
      (((wordToBytes 300 2).isSome ↔ (300 : ℕ) < 2 ^ (8 * 2)) ∧
        ((300 : ℕ) < 2 ^ (8 * 2) →
          wordToBytes 300 2 = some ((List.range 2).map fun i => 300 / 2 ^ (8 * i) % 256))) :=
  ⟨by unfold p; norm_num, c10_wordToBytes 300 2 (by unfold p; norm_num)⟩

/-! ## Claims C8, C9 -/

/-- C8: for every `n < 2^64`, `divMod32 n` succeeds and returns
`(quotient, remainder)` with `quotient * 2^32 + remainder == n` and
`remainder ∈ [0, 2^32)`; in particular at `n = (1 << 32) + 8` it returns
`remainder = 8` and `quotient = 1` (the witness instantiates this). -/
theorem c8_divMod32 (n : ℕ) (hn : n < 2 ^ 64) :
    divMod32 n 32 = some (n / 2 ^ 32, n % 2 ^ 32) ∧
      n / 2 ^ 32 * 2 ^ 32 + n % 2 ^ 32 = n ∧ n % 2 ^ 32 < 2 ^ 32 := by
  have hp248 := p_large.1
  have h64 : (2 : ℕ) ^ 64 ≤ 2 ^ 248 := Nat.pow_le_pow_right (by norm_num) (by norm_num)
  refine ⟨?_, by omega, by omega⟩
  unfold divMod32
  dsimp only
  rw [if_pos ⟨by rw [if_neg (by norm_num : ¬ (32 : ℕ) = 1)]; omega, by omega,
    by rw [show n / 2 ^ 32 * 2 ^ 32 + (n - n / 2 ^ 32 * 2 ^ 32) = n from by omega]⟩]
  rw [show n - n / 2 ^ 32 * 2 ^ 32 = n % 2 ^ 32 from by omega]

/-- C8 (witness): the claim's concrete scenario `n = (1 << 32) + 8`, with
`remainder = 8` and `quotient = 1`. -/
theorem c8_divMod32_witness :
    (2 ^ 32 + 8 : ℕ) < 2 ^ 64 ∧
      (divMod32 (2 ^ 32 + 8) 32 = some (1, 8) ∧
        (1 * 2 ^ 32 + 8 : ℕ) = 2 ^ 32 + 8 ∧ (8 : ℕ) < 2 ^ 32) := by
  have h := c8_divMod32 (2 ^ 32 + 8) (by norm_num)
  rw [show (2 ^ 32 + 8 : ℕ) / 2 ^ 32 = 1 from by norm_num,
    show (2 ^ 32 + 8 : ℕ) % 2 ^ 32 = 8 from by norm_num] at h
  exact ⟨by norm_num, h.1, by norm_num, by norm_num⟩

/-- C9: `addMod32 x y` constrains the `2^32`-quotient of `x + y` to a single
boolean bit, so for documented inputs `x, y < 2^64` it succeeds and returns
`(x + y) mod 2^32` exactly when `x + y < 2^33`, and fails (the boolean check on
the quotient is violated) when `x + y ≥ 2^33`. -/
theorem c9_addMod32 (x y : ℕ) (hx : x < 2 ^ 64) (hy : y < 2 ^ 64) :
    (x + y < 2 ^ 33 → addMod32 x y = some ((x + y) % 2 ^ 32)) ∧
    (2 ^ 33 ≤ x + y → addMod32 x y = none) := by
  have hp248 := p_large.1
  have h65 : (2 : ℕ) ^ 64 + 2 ^ 64 ≤ 2 ^ 248 := by norm_num
  have hmod : (x + y) % p = x + y := Nat.mod_eq_of_lt (by omega)
  constructor
  · intro hlt
    unfold addMod32 divMod32
    rw [hmod]
    dsimp only
    rw [if_pos ⟨by rw [if_pos (rfl : (1 : ℕ) = 1)]; omega, by omega,
      by rw [show (x + y) / 2 ^ 32 * 2 ^ 32 + (x + y - (x + y) / 2 ^ 32 * 2 ^ 32) = x + y
        from by omega]⟩]
    simp only [Option.map_some']
    rw [show x + y - (x + y) / 2 ^ 32 * 2 ^ 32 = (x + y) % 2 ^ 32 from by omega]
  · intro hge
    unfold addMod32 divMod32
    rw [hmod]
    dsimp only
    rw [if_neg ?hcond]
    case hcond =>
      intro hcond
      obtain ⟨h1, h2, h3⟩ := hcond
      rw [if_pos (rfl : (1 : ℕ) = 1)] at h1
      omega
    rfl

/-- C9 (witness): concrete instances `x = 8, y = 2^32` (success) and the failure
premise at `x = 2^32, y = 2^32`. -/
theorem c9_addMod32_witness :
    ((8 : ℕ) < 2 ^ 64 ∧ (2 ^ 32 : ℕ) < 2 ^ 64 ∧
      ((8 : ℕ) + 2 ^ 32 < 2 ^ 33 → addMod32 8 (2 ^ 32) = some ((8 + 2 ^ 32) % 2 ^ 32))) ∧
    ((2 ^ 32 : ℕ) < 2 ^ 64 ∧
      (2 ^ 33 ≤ (2 ^ 32 : ℕ) + 2 ^ 32 → addMod32 (2 ^ 32) (2 ^ 32) = none)) :=
  ⟨⟨by norm_num, by norm_num, (c9_addMod32 8 (2 ^ 32) (by norm_num) (by norm_num)).1⟩,
    ⟨by norm_num, (c9_addMod32 (2 ^ 32) (2 ^ 32) (by norm_num) (by norm_num)).2⟩⟩

end GadgetsBn254
